import Mathlib

/-!
Shallow embedding of the analytical core of the WepGpu-Embeddings repository:
the topic pipeline of `src/topicModeler.js` (class `TopicModeler`) and the
dimensionality reducer of `src/main.js` (class `DimensionalityReducer`).

Modelling conventions:

* JavaScript numbers are modelled by `Nat` where the source uses counts and
  indices, by `ℚ` where the source merely stores embedding coordinates, and by
  `ℝ` where the source computes `Math.log` (the c-TF-IDF scores).
* A JavaScript `Map` is modelled by an insertion-ordered association list
  (`upd` / `getVal`): updating an existing key keeps its position and a new key
  is appended at the end, exactly like `Map.prototype.set`, and iteration order
  is list order, exactly like `Map.prototype.entries`.
* `Array.prototype.sort` (guaranteed stable since ES2019) is modelled by the
  stable insertion sort `sortStable`; every stable sort agrees with it for a
  total, transitive comparator.  The source's comparator
  `(a, b) => b.score - a.score` compares the real scores; the executable
  comparator `scoreLe` is proved equivalent to that comparison (`scoreLe_iff`).
* The external packages `ml-kmeans` (used by `TopicModeler._cluster`) and
  `pca-js` (used by `DimensionalityReducer.reduce`) are not sources of this
  repository; the k-means assignment and the eigen-decomposition enter as
  parameters (`ClusterFn`, the `eigF` argument of `reduce`), constrained where
  a claim needs it by the contracts the specification states for them.
* Lean strings are unicode; the source's tokenizer is ASCII-oriented
  (`\w = [A-Za-z0-9_]`, `toLowerCase`, `.length`) and agrees with this model on
  ASCII input, which is all the concrete material used below.
-/

namespace WGE

/-- Lookup in an insertion-ordered association list; models `Map.prototype.get`
(`none` for a missing key). -/
def getVal [DecidableEq κ] (l : κ) : List (κ × β) → Option β
  | [] => none
  | e :: rest => if e.1 = l then some e.2 else getVal l rest

/-- Update-or-append on an insertion-ordered association list; models
`Map.prototype.set`: an existing key keeps its position, a new key is appended
at the end. -/
def upd [DecidableEq κ] (l : κ) (f : Option β → β) : List (κ × β) → List (κ × β)
  | [] => [(l, f none)]
  | e :: rest => if e.1 = l then (e.1, f (some e.2)) :: rest else e :: upd l f rest

/-- The keys of an association list in insertion order; models
`Map.prototype.keys`. -/
def keys (m : List (κ × β)) : List κ := m.map Prod.fst

/-- One step of stable insertion: place `x` before the first element `y` with
`le x y`.  With the descending comparator used below this keeps equal elements
in their original relative order, as `Array.prototype.sort` (stable) does. -/
def insertStable (le : α → α → Bool) (x : α) : List α → List α
  | [] => [x]
  | y :: ys => if le x y then x :: y :: ys else y :: insertStable le x ys

/-- Stable sort; models `Array.prototype.sort` with a comparator that is a
total preorder (every stable sort algorithm returns the same list then). -/
def sortStable (le : α → α → Bool) : List α → List α
  | [] => []
  | x :: xs => insertStable le x (sortStable le xs)

/-- `\w` of the source's regex `/[^\w\s]/g` (ASCII word character). -/
def isWordChar (c : Char) : Bool := c.isAlphanum || c = '_'

/-- `\s` of the source's regex. -/
def isSpaceChar (c : Char) : Bool := c.isWhitespace

/-- Whitespace splitter: models `.split(/\s+/)`.  The JS call can produce one
leading empty string when the input starts with whitespace; that artifact is
dropped here, and it is in any case removed by the source's own
`w.length > 2` filter, so the token streams agree. -/
def splitTok : List Char → List Char → List String
  | [], acc => if acc.isEmpty then [] else [String.mk acc.reverse]
  | c :: cs, acc =>
    if isSpaceChar c then
      if acc.isEmpty then splitTok cs [] else String.mk acc.reverse :: splitTok cs []
    else splitTok cs (c :: acc)

/-- The stopword set of `TopicModeler`'s constructor, transcribed verbatim
(apostrophes written as the escape `\x27`). -/
def stopWords : List String := [
  "a", "about", "above", "after", "again", "against", "all", "am", "an", "and", "any", "are", "aren\x27t", "as", "at",
  "be", "because", "been", "before", "being", "below", "between", "both", "but", "by",
  "can\x27t", "cannot", "could", "couldn\x27t", "did", "didn\x27t", "do", "does", "doesn\x27t", "doing", "don\x27t", "down", "during",
  "each", "few", "for", "from", "further", "had", "hadn\x27t", "has", "hasn\x27t", "have", "haven\x27t", "having", "he", "he\x27d", "he\x27ll", "he\x27s", "her", "here", "here\x27s", "hers", "herself", "him", "himself", "his", "how", "how\x27s",
  "i", "i\x27d", "i\x27ll", "i\x27m", "i\x27ve", "if", "in", "into", "is", "isn\x27t", "it", "it\x27s", "its", "itself",
  "let\x27s", "me", "more", "most", "mustn\x27t", "my", "myself", "no", "nor", "not",
  "of", "off", "on", "once", "only", "or", "other", "ought", "our", "ours", "ourselves", "out", "over", "own",
  "same", "shan\x27t", "she", "she\x27d", "she\x27ll", "she\x27s", "should", "shouldn\x27t", "so", "some", "such",
  "than", "that", "that\x27s", "the", "their", "theirs", "them", "themselves", "then", "there", "there\x27s", "these", "they", "they\x27d", "they\x27ll", "they\x27re", "they\x27ve", "this", "those", "through", "to", "too",
  "under", "until", "up", "very",
  "was", "wasn\x27t", "we", "we\x27d", "we\x27ll", "we\x27re", "we\x27ve", "were", "weren\x27t", "what", "what\x27s", "when", "when\x27s", "where", "where\x27s", "which", "while", "who", "who\x27s", "whom", "why", "why\x27s", "with", "won\x27t", "would", "wouldn\x27t",
  "you", "you\x27d", "you\x27ll", "you\x27re", "you\x27ve", "your", "yours", "yourself", "yourselves"]

/-- Tokenization of `TopicModeler._countWords`: lower-case, replace every
character that is neither `\w` nor `\s` by a space, split on whitespace, keep
only tokens longer than 2 that are not stopwords. -/
def tokenize (doc : String) : List String :=
  let replaced := doc.toList.map (fun c =>
    let lc := c.toLower
    if isWordChar lc || isSpaceChar lc then lc else ' ')
  (splitTok replaced []).filter (fun w => decide (2 < w.length) && !(stopWords.contains w))

/-- `counts.set(w, (counts.get(w) || 0) + 1)` of `_countWords`. -/
def bumpCount (m : List (String × Nat)) (w : String) : List (String × Nat) :=
  upd w (fun o => o.getD 0 + 1) m

/-- `TopicModeler._countWords(docs)`: word → raw count over all the documents,
processed document by document, token by token. -/
def countWords (docs : List String) : List (String × Nat) :=
  (docs.flatMap tokenize).foldl bumpCount []

/-- An empty string (the fallback document for an out-of-range index; the
source would read `undefined` there, which no verified claim exercises). -/
def blankStr : String := ""

/-- The `(label, (text, index))` stream of the grouping loop of
`TopicModeler.run` step 2: `for i in 0..clusters.length-1`. -/
def pairsOf (texts : List String) (clusters : List Nat) : List (Nat × (String × Nat)) :=
  (List.range clusters.length).map (fun i => (clusters.getD i 0, (texts.getD i blankStr, i)))

/-- One iteration of the grouping loop: push `(texts[i], i)` onto the group of
`clusters[i]`. -/
def pushPair (m : List (Nat × List (String × Nat))) (p : Nat × (String × Nat)) :
    List (Nat × List (String × Nat)) :=
  upd p.1 (fun o => o.getD [] ++ [p.2]) m

/-- `clusteredDocs` of `TopicModeler.run`: label → list of `(text, index)` in
encounter order (the source keeps two parallel arrays `docs` and `indices`;
here they are zipped). -/
def groupDocs (texts : List String) (clusters : List Nat) : List (Nat × List (String × Nat)) :=
  (pairsOf texts clusters).foldl pushPair []

/-- `clusterWordCounts` of `TopicModeler.run`: label → word counts of the
cluster's documents. -/
def clusterWordCounts (gd : List (Nat × List (String × Nat))) : List (Nat × List (String × Nat)) :=
  gd.map (fun e => (e.1, countWords (e.2.map Prod.fst)))

/-- `Set.prototype.add`: append if absent (a JS `Set` keeps insertion order
and ignores a repeated element). -/
def insDedup (s : List Nat) (x : Nat) : List Nat := if x ∈ s then s else s ++ [x]

/-- Insertion-ordered de-duplication: the contents of a JS `Set` built by
adding the elements of `xs` in order. -/
def dedupF (xs : List Nat) : List Nat := xs.foldl insDedup []

/-- One `wordInClusters.get(word).add(label)` step. -/
def addToSet (m : List (String × List Nat)) (p : String × Nat) : List (String × List Nat) :=
  upd p.1 (fun o => insDedup (o.getD []) p.2) m

/-- `wordInClusters` of `TopicModeler.run`: word → set (as an ordered,
duplicate-free list) of the labels of the clusters containing it. -/
def wordInClusters (cwc : List (Nat × List (String × Nat))) : List (String × List Nat) :=
  (cwc.flatMap (fun e => (keys e.2).map (fun w => (w, e.1)))).foldl addToSet []

/-- `wordInClusters.get(word).size` (`clustersWithWord` in the source). -/
def cwOf (wic : List (String × List Nat)) (w : String) : Nat :=
  ((getVal w wic).getD []).length

/-- The data behind one `{word, score}` entry of the source's `scores` array:
the score itself is `count * log(1 + totalClusters / clustersWith)`, see
`scoreVal`. -/
structure ScoreItem where
  word : String
  count : Nat
  clustersWith : Nat
deriving DecidableEq

/-- The real score the source computes for an item:
`tf * Math.log(1 + totalClusters / clustersWithWord)` with `tf` the raw
count. -/
noncomputable def scoreVal (T : Nat) (it : ScoreItem) : ℝ :=
  (it.count : ℝ) * Real.log (1 + (T : ℝ) / (it.clustersWith : ℝ))

/-- Numerator of `1 + T / c` as an exact fraction (`c = 0` cannot occur in the
pipeline; it is given the mathematical value of the real-division model). -/
def scoreNum (T c : Nat) : Nat := if c = 0 then 1 else c + T

/-- Denominator of `1 + T / c` as an exact fraction. -/
def scoreDen (c : Nat) : Nat := if c = 0 then 1 else c

/-- Executable form of the source's score comparator
`(a, b) => b.score - a.score` (descending): `scoreLe T a b` decides
`scoreVal T b ≤ scoreVal T a` by comparing
`(1 + T/cw)^count = (scoreNum/scoreDen)^count` cross-multiplied, which is
equivalent because `x ↦ log x` is strictly monotone (`scoreLe_iff`). -/
def scoreLe (T : Nat) (a b : ScoreItem) : Bool :=
  decide (scoreNum T b.clustersWith ^ b.count * scoreDen a.clustersWith ^ a.count ≤
          scoreNum T a.clustersWith ^ a.count * scoreDen b.clustersWith ^ b.count)

/-- The `scores` array built for one cluster (before sorting), in the
iteration order of the cluster's word-count map. -/
def scoresFor (wic : List (String × List Nat)) (wc : List (String × Nat)) : List ScoreItem :=
  wc.map (fun p => ⟨p.1, p.2, cwOf wic p.1⟩)

/-- The per-topic record `TopicModeler.run` pushes onto `results`. -/
structure Topic where
  id : Nat
  label : String
  keywords : List String
  docs : List String
  indices : List Nat
  embeddings : List (List ℚ)
deriving DecidableEq

/-- Separator of the label join `keywords.slice(0, 3).join("_")`. -/
def uscoreStr : String := "_"

/-- The fallback label text of `Topic ${label}`. -/
def topicFallbackStr : String := "Topic "

/-- The record `TopicModeler.run` pushes onto `results` for one cluster entry
`e` of `clusteredDocs`: look up the cluster's word counts (`wc`), score them,
sort descending, take the top 5 keywords and derive the label. -/
def mkTopic (es : List (List ℚ)) (cwc : List (Nat × List (String × Nat)))
    (wic : List (String × List Nat)) (T : Nat) (e : Nat × List (String × Nat)) : Topic :=
  let wc := (getVal e.1 cwc).getD []
  let sorted := sortStable (scoreLe T) (scoresFor wic wc)
  let kws := (sorted.take 5).map ScoreItem.word
  let joined := String.intercalate uscoreStr (kws.take 3)
  { id := e.1
    label := if joined = blankStr then topicFallbackStr ++ toString e.1 else joined
    keywords := kws
    docs := e.2.map Prod.fst
    indices := e.2.map Prod.snd
    embeddings := (e.2.map Prod.snd).map (fun i => es.getD i []) }

/-- The comparator of the final `results.sort((a, b) => a.id - b.id)`. -/
def idLe (a b : Topic) : Bool := decide (a.id ≤ b.id)

/-- Steps 2 and 3 of `TopicModeler.run` (grouping, c-TF-IDF, keyword
extraction) plus the final `results.sort((a, b) => a.id - b.id)` ascending by
cluster id. -/
def topicsOf (texts : List String) (embeddings : List (List ℚ)) (clusters : List Nat) :
    List Topic :=
  let gd := groupDocs texts clusters
  let cwc := clusterWordCounts gd
  let wic := wordInClusters cwc
  sortStable idLe (gd.map (mkTopic embeddings cwc wic gd.length))

/-- `Math.max(2, Math.floor(Math.sqrt(texts.length / 2)))` of
`TopicModeler.run`.  For a natural `n`, `⌊√(n / 2)⌋` over the reals equals
`Nat.sqrt (n / 2)` with truncating division, because no perfect square lies
strictly between `⌊n / 2⌋` and `n / 2`. -/
def defaultK (n : Nat) : Nat := max 2 (Nat.sqrt (n / 2))

/-- `const numClusters = k || Math.max(2, ...)`: `k = null` (unspecified) and
`k = 0` are both falsy, so the heuristic replaces them. -/
def numClustersOf (n : Nat) (k : Option Nat) : Nat :=
  match k with
  | some v => if v = 0 then defaultK n else v
  | none => defaultK n

/-- The error kinds of the specification's §7 (the source raises untyped
exceptions; the spec names them). -/
inductive Err where
  | ShapeMismatch
  | InvalidParameter
deriving DecidableEq

/-- An abstract k-means assignment: the output of the external `ml-kmeans`
package for a given matrix and k. -/
abbrev ClusterFn : Type := List (List ℚ) → Nat → List Nat

/-- The contract the specification states for a successful `cluster` call
(§4.2 / §8): an assignment of length N with every value in `[0, k)`. -/
def ClusterSpec (f : ClusterFn) : Prop :=
  ∀ emb k, 1 ≤ k → k ≤ emb.length →
    (f emb k).length = emb.length ∧ ∀ c ∈ f emb k, c < k

/-- Modelled from the spec: `TopicModeler._cluster` delegates to the external
`ml-kmeans` package, whose sources are not in this repository.  Per spec §4.2
the operation fails with an `InvalidParameter` condition when k ≤ 0 or k > N
(in this `Nat` model, `k ≤ 0` is `k = 0`) and otherwise returns an assignment,
which is the abstract parameter `f`. -/
def clusterOp (f : ClusterFn) (emb : List (List ℚ)) (k : Nat) : Except Err (List Nat) :=
  if k = 0 ∨ emb.length < k then .error .InvalidParameter else .ok (f emb k)

/-- `TopicModeler.run(texts, embeddings, k)`, the pipeline orchestrator. -/
def run (f : ClusterFn) (texts : List String) (embeddings : List (List ℚ))
    (k : Option Nat) : Except Err (List Topic) :=
  if texts.isEmpty then .ok []
  else (clusterOp f embeddings (numClustersOf texts.length k)).map (topicsOf texts embeddings)

/-- An eigenpair as returned by `PCA.getEigenVectors` (only the `eigenvector`
field is read by `reduce`). -/
structure EigenPair where
  eigenvalue : ℚ
  eigenvector : List ℚ

/-- The local `dot` helper of `DimensionalityReducer.reduce`:
`a.reduce((sum, val, i) => sum + val * b[i], 0)` — it iterates over the
indices of `a` and reads `b[i]` (a missing coordinate is modelled as 0; the
source would produce NaN there, a case no verified claim exercises). -/
def dotQ (a b : List ℚ) : ℚ :=
  ((List.range a.length).map (fun i => a.getD i 0 * b.getD i 0)).sum

/-- `DimensionalityReducer.reduce(embeddings, targetDim)` of `src/main.js`.
The eigen-decomposition `PCA.getEigenVectors` is external (`pca-js`) and
enters as the parameter `eigF`.  When `eigF` yields fewer than `targetDim`
pairs, the projection loop reads `topVectors[j] = undefined` and the `dot`
call throws a TypeError for any non-empty row; that failure is modelled as
`none`. -/
def reduce (eigF : List (List ℚ) → List EigenPair) (embeddings : List (List ℚ))
    (targetDim : Nat) : Option (List (List ℚ)) :=
  if embeddings.length < targetDim + 1 then
    some (embeddings.map (fun e => e.take targetDim ++ List.replicate (targetDim - e.length) 0))
  else if (((eigF embeddings).take targetDim).map EigenPair.eigenvector).length < targetDim then
    none
  else
    some ((List.range embeddings.length).map (fun i =>
      (List.range targetDim).map (fun j =>
        dotQ (embeddings.getD i [])
          ((((eigF embeddings).take targetDim).map EigenPair.eigenvector).getD j []))))

/-- Number of occurrences of `w` in a token stream (spec-side counting, used
to state what the count maps compute). -/
def occCount (w : String) (ws : List String) : Nat :=
  (ws.filter (fun x => decide (x = w))).length

/-- The token stream of one cluster entry (its documents tokenized in
order). -/
def clusterTokens (e : Nat × List (String × Nat)) : List String :=
  (e.2.map Prod.fst).flatMap tokenize

/-- From the spec's words: the raw occurrence count of token `w` across the
documents of the cluster labelled `l`. -/
def specRawCount (ts : List String) (cs : List Nat) (l : Nat) (w : String) : Nat :=
  occCount w ((((getVal l (groupDocs ts cs)).getD []).map Prod.fst).flatMap tokenize)

/-- From the spec's words: the number of distinct clusters in whose documents
token `w` appears at least once. -/
def specClustersWith (ts : List String) (cs : List Nat) (w : String) : Nat :=
  ((groupDocs ts cs).filter (fun e => decide (w ∈ clusterTokens e))).length

/-- From the spec's words (claim C1): the default k
`max(2, floor(sqrt(N / 2)))` clamped to the range `[1, N]`. -/
def specDefaultK (n : Nat) : Nat := min (max 1 (defaultK n)) n

/-- From the spec's words (C8): lexicographic order on character lists. -/
def lexLtChars : List Char → List Char → Bool
  | [], [] => false
  | [], _ :: _ => true
  | _ :: _, [] => false
  | c :: cs, d :: ds => if c < d then true else if d < c then false else lexLtChars cs ds

/-- From the spec's words (C8): lexicographic order of tokens. -/
def lexLt (a b : String) : Bool := lexLtChars a.toList b.toList

/-- A concrete assignment function for witnesses: everything into cluster 0
(a valid `ml-kmeans` outcome shape: length N, values in `[0, k)` for
`k ≥ 1`). -/
def cxF : ClusterFn := fun emb _ => emb.map (fun _ => 0)

/-- A concrete rank-1 decomposition for the C5 counterexample: one eigenpair,
as the spec's §3 rank bound `min(N-1, D)` dictates for D = 1 input. -/
def eigFcx : List (List ℚ) → List EigenPair := fun _ => [⟨1, [1]⟩]

/-- A concrete three-pair decomposition for the C5 witness. -/
def eigFw : List (List ℚ) → List EigenPair :=
  fun _ => [⟨1, [1, 0, 0]⟩, ⟨1, [0, 1, 0]⟩, ⟨1, [0, 0, 1]⟩]

deriving instance DecidableEq for Except

def tAAA : String := "aaa"
def tBBB : String := "bbb"
def tCCC : String := "ccc"
def tABC : String := "abc"
def wZebra : String := "zebra"
def wApple : String := "apple"
def tZebraApple : String := "zebra apple"
def tCatDoc : String := "cat cat dog"
def tDogDoc : String := "dog dog dog"
def wCat : String := "cat"
def wDog : String := "dog"

/-! ### Association-list lemmas -/

theorem keys_cons (e : κ × β) (m : List (κ × β)) : keys (e :: m) = e.1 :: keys m := rfl

theorem getVal_upd [DecidableEq κ] (l l' : κ) (f : Option β → β) (m : List (κ × β)) :
    getVal l (upd l' f m) = if l' = l then some (f (getVal l m)) else getVal l m := by
  induction m with
  | nil =>
    by_cases h : l' = l <;> simp [upd, getVal, h]
  | cons e rest ih =>
    obtain ⟨k, v⟩ := e
    by_cases h1 : k = l'
    · subst h1
      by_cases h2 : k = l <;> simp [upd, getVal, h2]
    · by_cases h2 : k = l
      · subst h2
        have h3 : ¬ l' = k := fun hc => h1 hc.symm
        simp [upd, getVal, h1, h3]
      · simp [upd, getVal, h1, h2, ih]

theorem keys_upd [DecidableEq κ] (l : κ) (f : Option β → β) (m : List (κ × β)) :
    keys (upd l f m) = if l ∈ keys m then keys m else keys m ++ [l] := by
  induction m with
  | nil => simp [upd, keys]
  | cons e rest ih =>
    obtain ⟨k, v⟩ := e
    by_cases h1 : k = l
    · subst h1
      simp [upd, keys_cons]
    · have h2 : ¬ l = k := fun hc => h1 hc.symm
      rw [show upd l f ((k, v) :: rest) = (k, v) :: upd l f rest by simp [upd, h1]]
      rw [keys_cons, keys_cons, ih]
      by_cases h3 : l ∈ keys rest <;> simp [h2, h3]

theorem nodup_keys_upd [DecidableEq κ] (l : κ) (f : Option β → β) (m : List (κ × β))
    (h : (keys m).Nodup) : (keys (upd l f m)).Nodup := by
  rw [keys_upd]
  by_cases hm : l ∈ keys m
  · simpa [hm]
  · simpa [hm] using List.Nodup.append h (by simp) (by simpa using fun hc => hm hc)

theorem getVal_eq_none_iff [DecidableEq κ] (l : κ) (m : List (κ × β)) :
    getVal l m = none ↔ l ∉ keys m := by
  induction m with
  | nil => simp [getVal, keys]
  | cons e rest ih =>
    by_cases h : e.1 = l
    · simp [getVal, keys, h]
    · have h2 : ¬ l = e.1 := fun hc => h hc.symm
      simp [getVal, keys, h, h2, ih]

theorem getVal_mem [DecidableEq κ] {l : κ} {b : β} {m : List (κ × β)}
    (h : getVal l m = some b) : (l, b) ∈ m := by
  induction m with
  | nil => simp [getVal] at h
  | cons e rest ih =>
    obtain ⟨k, v⟩ := e
    by_cases h1 : k = l
    · subst h1
      simp only [getVal, if_pos rfl] at h
      have hb : v = b := by simpa using h
      subst hb
      exact List.mem_cons_self _ _
    · simp only [getVal, if_neg h1] at h
      exact List.mem_cons_of_mem _ (ih h)

theorem getVal_of_mem_of_nodup [DecidableEq κ] {e : κ × β} {m : List (κ × β)}
    (hn : (keys m).Nodup) (h : e ∈ m) : getVal e.1 m = some e.2 := by
  induction m with
  | nil => simp at h
  | cons e' rest ih =>
    rw [keys_cons, List.nodup_cons] at hn
    rcases List.mem_cons.mp h with h1 | h1
    · subst h1
      simp [getVal]
    · have hmem : e.1 ∈ keys rest := by
        simpa [keys] using List.mem_map_of_mem Prod.fst h1
      have hne : ¬ e'.1 = e.1 := fun hc => hn.1 (by rw [hc]; exact hmem)
      simp only [getVal, if_neg hne]
      exact ih hn.2 h1

theorem nodup_keys_foldl_upd [DecidableEq κ] (key : γ → κ) (fup : γ → Option β → β)
    (ps : List γ) (m0 : List (κ × β)) (h0 : (keys m0).Nodup) :
    (keys (ps.foldl (fun m p => upd (key p) (fup p) m) m0)).Nodup := by
  induction ps generalizing m0 with
  | nil => simpa
  | cons p ps ih => exact ih _ (nodup_keys_upd _ _ _ h0)

/-! ### Characterizations of the three map-building loops -/

theorem getVal_groupAcc (ps : List (Nat × (String × Nat))) (l : Nat) :
    getVal l (ps.foldl pushPair []) =
      if ps.filter (fun p => decide (p.1 = l)) = [] then none
      else some ((ps.filter (fun p => decide (p.1 = l))).map Prod.snd) := by
  induction ps using List.reverseRecOn with
  | nil => simp [getVal]
  | append_singleton ps p ih =>
    rw [List.foldl_append]
    have hstep : List.foldl pushPair (ps.foldl pushPair []) [p] =
        upd p.1 (fun o => o.getD [] ++ [p.2]) (ps.foldl pushPair []) := rfl
    rw [hstep, getVal_upd, ih]
    by_cases hpl : p.1 = l
    · by_cases he : ps.filter (fun p => decide (p.1 = l)) = [] <;>
        simp [List.filter_append, hpl, he]
    · have hfp : List.filter (fun q => decide (q.1 = l)) [p] = [] := by
        simp [hpl]
      rw [List.filter_append, hfp, List.append_nil, if_neg hpl]

theorem occCount_append_singleton (w x : String) (ws : List String) :
    occCount w (ws ++ [x]) = occCount w ws + if x = w then 1 else 0 := by
  by_cases h : x = w <;> simp [occCount, List.filter_append, h]

theorem getVal_countAcc (ws : List String) (w : String) :
    getVal w (ws.foldl bumpCount []) =
      if occCount w ws = 0 then none else some (occCount w ws) := by
  induction ws using List.reverseRecOn with
  | nil => simp [getVal, occCount]
  | append_singleton ws x ih =>
    rw [List.foldl_append]
    have hstep : List.foldl bumpCount (ws.foldl bumpCount []) [x] =
        upd x (fun o => o.getD 0 + 1) (ws.foldl bumpCount []) := rfl
    rw [hstep]
    show getVal w (upd x (fun o => o.getD 0 + 1) (ws.foldl bumpCount [])) = _
    rw [getVal_upd, ih, occCount_append_singleton]
    by_cases hxw : x = w
    · by_cases h0 : occCount w ws = 0 <;> simp [hxw, h0]
    · simp [hxw]

theorem occCount_eq_zero_iff (w : String) (ws : List String) :
    occCount w ws = 0 ↔ w ∉ ws := by
  rw [occCount, List.length_eq_zero, List.filter_eq_nil_iff]
  constructor
  · intro h hw
    have hww := h w hw
    simp at hww
  · intro h x hx
    simp only [decide_eq_true_eq]
    intro hc
    exact h (hc ▸ hx)

theorem mem_keys_countAcc (ws : List String) (w : String) :
    w ∈ keys (ws.foldl bumpCount []) ↔ w ∈ ws := by
  rw [← not_iff_not, ← getVal_eq_none_iff, getVal_countAcc, ← occCount_eq_zero_iff w ws]
  by_cases h0 : occCount w ws = 0 <;> simp [h0]

theorem dedupF_append_singleton (xs : List Nat) (x : Nat) :
    dedupF (xs ++ [x]) = insDedup (dedupF xs) x := by
  rw [dedupF, dedupF, List.foldl_append]
  rfl

theorem mem_dedupF (xs : List Nat) : ∀ y, y ∈ dedupF xs ↔ y ∈ xs := by
  induction xs using List.reverseRecOn with
  | nil => simp [dedupF]
  | append_singleton xs x ih =>
    intro y
    rw [dedupF_append_singleton, insDedup]
    by_cases h : x ∈ dedupF xs
    · have hx : x ∈ xs := (ih x).mp h
      rw [if_pos h, ih y]
      simp only [List.mem_append, List.mem_singleton]
      exact ⟨Or.inl, fun hy => hy.elim id (fun he => he ▸ hx)⟩
    · rw [if_neg h]
      simp [ih y]

theorem dedupF_eq_self {xs : List Nat} (h : xs.Nodup) : dedupF xs = xs := by
  induction xs using List.reverseRecOn with
  | nil => simp [dedupF]
  | append_singleton xs x ih =>
    rw [List.nodup_append] at h
    have h2 : x ∉ xs := fun hx => h.2.2 hx (by simp)
    rw [dedupF_append_singleton, ih h.1, insDedup, if_neg h2]

theorem getVal_setAcc (ps : List (String × Nat)) (w : String) :
    getVal w (ps.foldl addToSet []) =
      if ps.filter (fun p => decide (p.1 = w)) = [] then none
      else some (dedupF ((ps.filter (fun p => decide (p.1 = w))).map Prod.snd)) := by
  induction ps using List.reverseRecOn with
  | nil => simp [getVal]
  | append_singleton ps p ih =>
    rw [List.foldl_append]
    have hstep : List.foldl addToSet (ps.foldl addToSet []) [p] =
        upd p.1 (fun o => insDedup (o.getD []) p.2) (ps.foldl addToSet []) := rfl
    rw [hstep, getVal_upd, ih]
    by_cases hpw : p.1 = w
    · by_cases he : ps.filter (fun p => decide (p.1 = w)) = [] <;>
        simp [List.filter_append, hpw, he, dedupF_append_singleton, dedupF, insDedup]
    · have hfp : List.filter (fun q => decide (q.1 = w)) [p] = [] := by
        simp [hpw]
      rw [List.filter_append, hfp, List.append_nil, if_neg hpw]

/-! ### Stable-sort lemmas -/

theorem mem_insertStable (le : α → α → Bool) (x : α) (l : List α) (z : α) :
    z ∈ insertStable le x l ↔ z = x ∨ z ∈ l := by
  induction l with
  | nil => simp [insertStable]
  | cons y ys ih =>
    by_cases h : le x y
    · simp [insertStable, h]
    · simp only [insertStable, if_neg h, List.mem_cons, ih]
      tauto

theorem perm_insertStable (le : α → α → Bool) (x : α) (l : List α) :
    (insertStable le x l).Perm (x :: l) := by
  induction l with
  | nil => simp [insertStable]
  | cons y ys ih =>
    by_cases h : le x y
    · simp [insertStable, h]
    · simp only [insertStable, if_neg h]
      exact (ih.cons y).trans (List.Perm.swap x y ys)

theorem sortStable_perm (le : α → α → Bool) (l : List α) : (sortStable le l).Perm l := by
  induction l with
  | nil => simp [sortStable]
  | cons x xs ih =>
    exact (perm_insertStable le x (sortStable le xs)).trans (ih.cons x)

theorem pairwise_insertStable (le : α → α → Bool)
    (htrans : ∀ a b c, le a b = true → le b c = true → le a c = true)
    (htotal : ∀ a b, le a b = true ∨ le b a = true)
    (x : α) (l : List α) (h : l.Pairwise (fun a b => le a b = true)) :
    (insertStable le x l).Pairwise (fun a b => le a b = true) := by
  induction l with
  | nil => simp [insertStable]
  | cons y ys ih =>
    rcases List.pairwise_cons.mp h with ⟨hy, hys⟩
    by_cases hc : le x y
    · simp only [insertStable, if_pos hc]
      refine List.pairwise_cons.mpr ⟨?_, h⟩
      intro z hz
      rcases List.mem_cons.mp hz with rfl | hz'
      · exact hc
      · exact htrans x y z hc (hy z hz')
    · simp only [insertStable, if_neg hc]
      have hyx : le y x = true := (htotal x y).resolve_left (by simpa using hc)
      refine List.pairwise_cons.mpr ⟨?_, ih hys⟩
      intro z hz
      rcases (mem_insertStable le x ys z).mp hz with rfl | hz'
      · exact hyx
      · exact hy z hz'

theorem sortStable_pairwise (le : α → α → Bool)
    (htrans : ∀ a b c, le a b = true → le b c = true → le a c = true)
    (htotal : ∀ a b, le a b = true ∨ le b a = true)
    (l : List α) : (sortStable le l).Pairwise (fun a b => le a b = true) := by
  induction l with
  | nil => simp [sortStable]
  | cons x xs ih => exact pairwise_insertStable le htrans htotal x _ ih

theorem sublist_insertStable (le : α → α → Bool) (x : α) (l : List α) :
    l.Sublist (insertStable le x l) := by
  induction l with
  | nil => simp [insertStable]
  | cons y ys ih =>
    by_cases h : le x y
    · simp only [insertStable, if_pos h]
      exact List.Sublist.cons x (List.Sublist.refl _)
    · simp only [insertStable, if_neg h]
      exact ih.cons₂ y

theorem cons_sublist_insertStable (le : α → α → Bool) (x : α) :
    ∀ (s c : List α), c.Sublist s → (∀ z ∈ c, le x z = true) →
      (x :: c).Sublist (insertStable le x s) := by
  intro s
  induction s with
  | nil =>
    intro c hc _
    rw [List.sublist_nil.mp hc]
    simp [insertStable]
  | cons y ys ih =>
    intro c hc hx
    by_cases h : le x y
    · simp only [insertStable, if_pos h]
      exact hc.cons₂ x
    · simp only [insertStable, if_neg h]
      cases hc with
      | cons _ hsub => exact (ih c hsub hx).cons y
      | cons₂ _ hsub =>
        exact absurd (hx y (List.mem_cons_self y _)) (by simpa using h)

theorem sortStable_stable (le : α → α → Bool) :
    ∀ (l c : List α), c.Sublist l → c.Pairwise (fun a b => le a b = true) →
      c.Sublist (sortStable le l) := by
  intro l
  induction l with
  | nil =>
    intro c hc _
    rw [List.sublist_nil.mp hc]
    exact List.nil_sublist _
  | cons x xs ih =>
    intro c hc hp
    cases hc with
    | cons _ hsub => exact (ih c hsub hp).trans (sublist_insertStable le x _)
    | cons₂ _ hsub =>
      rcases List.pairwise_cons.mp hp with ⟨hx, hp2⟩
      exact cons_sublist_insertStable le x (sortStable le xs) _ (ih _ hsub hp2) hx

/-! ### The comparator decides the real score comparison -/

theorem scoreNum_pos (T c : Nat) : 0 < scoreNum T c := by
  by_cases h : c = 0 <;> simp [scoreNum, h] <;> omega

theorem scoreDen_pos (c : Nat) : 0 < scoreDen c := by
  by_cases h : c = 0 <;> simp [scoreDen, h] <;> omega

theorem ratio_eq (T c : Nat) :
    1 + (T : ℝ) / (c : ℝ) = (scoreNum T c : ℝ) / (scoreDen c : ℝ) := by
  by_cases h : c = 0
  · subst h
    simp [scoreNum, scoreDen]
  · have hc : (c : ℝ) ≠ 0 := Nat.cast_ne_zero.mpr h
    rw [scoreNum, scoreDen, if_neg h, if_neg h]
    push_cast
    field_simp

theorem scoreVal_eq_log (T : Nat) (it : ScoreItem) :
    scoreVal T it =
      Real.log (((scoreNum T it.clustersWith : ℝ) / (scoreDen it.clustersWith : ℝ)) ^ it.count) := by
  rw [Real.log_pow, scoreVal, ratio_eq]

theorem scoreLe_iff (T : Nat) (a b : ScoreItem) :
    scoreLe T a b = true ↔ scoreVal T b ≤ scoreVal T a := by
  have hNa : (0 : ℝ) < (scoreNum T a.clustersWith : ℝ) := by
    exact_mod_cast scoreNum_pos T a.clustersWith
  have hNb : (0 : ℝ) < (scoreNum T b.clustersWith : ℝ) := by
    exact_mod_cast scoreNum_pos T b.clustersWith
  have hDa : (0 : ℝ) < (scoreDen a.clustersWith : ℝ) := by
    exact_mod_cast scoreDen_pos a.clustersWith
  have hDb : (0 : ℝ) < (scoreDen b.clustersWith : ℝ) := by
    exact_mod_cast scoreDen_pos b.clustersWith
  rw [scoreLe, decide_eq_true_eq, scoreVal_eq_log, scoreVal_eq_log,
    Real.log_le_log_iff (pow_pos (div_pos hNb hDb) _) (pow_pos (div_pos hNa hDa) _),
    div_pow, div_pow, div_le_div_iff (pow_pos hDb _) (pow_pos hDa _)]
  constructor
  · intro h
    exact_mod_cast h
  · intro h
    exact_mod_cast h

theorem scoreLe_total (T : Nat) (a b : ScoreItem) :
    scoreLe T a b = true ∨ scoreLe T b a = true := by
  rw [scoreLe_iff, scoreLe_iff]
  exact le_total _ _

theorem scoreLe_trans (T : Nat) (a b c : ScoreItem)
    (hab : scoreLe T a b = true) (hbc : scoreLe T b c = true) : scoreLe T a c = true := by
  rw [scoreLe_iff] at hab hbc ⊢
  exact le_trans hbc hab

/-! ### From the count and set maps to the spec-side counting functions -/

theorem getVal_map_entry [DecidableEq κ] (g : β → γ) (m : List (κ × β)) (l : κ) :
    getVal l (m.map (fun e => (e.1, g e.2))) = (getVal l m).map g := by
  induction m with
  | nil => simp [getVal]
  | cons e rest ih =>
    by_cases h : e.1 = l <;> simp [getVal, h, ih]

theorem keys_clusterWordCounts (gd : List (Nat × List (String × Nat))) :
    keys (clusterWordCounts gd) = keys gd := by
  rw [clusterWordCounts, keys, keys, List.map_map]
  rfl

theorem nodup_keys_groupDocs (ts : List String) (cs : List Nat) :
    (keys (groupDocs ts cs)).Nodup :=
  nodup_keys_foldl_upd (fun p : Nat × (String × Nat) => p.1)
    (fun p o => o.getD [] ++ [p.2]) (pairsOf ts cs) [] (by simp [keys])

theorem nodup_keys_countWords (docs : List String) : (keys (countWords docs)).Nodup :=
  nodup_keys_foldl_upd (fun w : String => w) (fun _ o => o.getD 0 + 1)
    (docs.flatMap tokenize) [] (by simp [keys])

theorem filter_eq_singleton_of_nodup {xs : List String} (h : xs.Nodup) (w : String) :
    xs.filter (fun x => decide (x = w)) = if w ∈ xs then [w] else [] := by
  induction xs with
  | nil => simp
  | cons x xs ih =>
    rw [List.nodup_cons] at h
    by_cases hxw : x = w
    · subst hxw
      rw [List.filter_cons, if_pos (by simp), ih h.2, if_neg h.1,
        if_pos (List.mem_cons_self _ _)]
    · rw [List.filter_cons, if_neg (by simp [hxw]), ih h.2]
      by_cases hw : w ∈ xs
      · rw [if_pos hw, if_pos (List.mem_cons_of_mem _ hw)]
      · have h3 : w ∉ x :: xs := by
          intro hc
          rcases List.mem_cons.mp hc with hc | hc
          · exact hxw hc.symm
          · exact hw hc
        rw [if_neg hw, if_neg h3]

theorem wic_filter (cwc : List (Nat × List (String × Nat))) (w : String)
    (hkeys : ∀ e ∈ cwc, (keys e.2).Nodup) :
    ((cwc.flatMap (fun e => (keys e.2).map (fun w' => (w', e.1)))).filter
        (fun p => decide (p.1 = w))).map Prod.snd =
      (cwc.filter (fun e => decide (w ∈ keys e.2))).map Prod.fst := by
  induction cwc with
  | nil => simp
  | cons e rest ih =>
    rw [List.flatMap_cons, List.filter_append, List.map_append,
      ih (fun e' he' => hkeys e' (List.mem_cons_of_mem _ he')), List.filter_cons]
    have hk := hkeys e (List.mem_cons_self _ _)
    have hblock : (((keys e.2).map (fun w' => (w', e.1))).filter
        (fun p => decide (p.1 = w))).map Prod.snd =
        if w ∈ keys e.2 then [e.1] else [] := by
      rw [List.filter_map, List.map_map]
      have hcomp : ((fun p : String × Nat => decide (p.1 = w)) ∘ (fun w' => (w', e.1))) =
          fun w' => decide (w' = w) := rfl
      rw [hcomp, filter_eq_singleton_of_nodup hk w]
      by_cases hw : w ∈ keys e.2 <;> simp [hw]
    rw [hblock]
    by_cases hw : w ∈ keys e.2
    · rw [if_pos hw, if_pos (by simpa using hw)]
      simp
    · rw [if_neg hw, if_neg (by simpa using hw)]
      simp

theorem cwc_filter_length (ts : List String) (cs : List Nat) (w : String) :
    ((clusterWordCounts (groupDocs ts cs)).filter (fun e => decide (w ∈ keys e.2))).length
      = specClustersWith ts cs w := by
  rw [specClustersWith, clusterWordCounts, List.filter_map, List.length_map]
  congr 1
  apply List.filter_congr
  intro e _
  simp only [Function.comp, decide_eq_decide]
  rw [countWords]
  rw [mem_keys_countAcc]
  rfl

theorem cwOf_eq (ts : List String) (cs : List Nat) (w : String) :
    cwOf (wordInClusters (clusterWordCounts (groupDocs ts cs))) w =
      specClustersWith ts cs w := by
  have hkeys : ∀ e ∈ clusterWordCounts (groupDocs ts cs), (keys e.2).Nodup := by
    intro e he
    rcases List.mem_map.mp he with ⟨e', _, rfl⟩
    exact nodup_keys_countWords _
  have hmap := wic_filter (clusterWordCounts (groupDocs ts cs)) w hkeys
  have hnodup : (((clusterWordCounts (groupDocs ts cs)).filter
      (fun e => decide (w ∈ keys e.2))).map Prod.fst).Nodup := by
    have hsub : (((clusterWordCounts (groupDocs ts cs)).filter
        (fun e => decide (w ∈ keys e.2))).map Prod.fst).Sublist
        (keys (clusterWordCounts (groupDocs ts cs))) :=
      List.Sublist.map Prod.fst (List.filter_sublist _)
    exact hsub.nodup (by rw [keys_clusterWordCounts]; exact nodup_keys_groupDocs ts cs)
  rw [cwOf, wordInClusters, getVal_setAcc]
  by_cases hF : ((clusterWordCounts (groupDocs ts cs)).flatMap
      (fun e => (keys e.2).map (fun w' => (w', e.1)))).filter (fun p => decide (p.1 = w)) = []
  · rw [if_pos hF]
    rw [hF] at hmap
    rw [← cwc_filter_length ts cs w]
    have h0 : ((clusterWordCounts (groupDocs ts cs)).filter
        (fun e => decide (w ∈ keys e.2))).map Prod.fst = [] := by
      rw [← hmap]
      rfl
    have h1 : (clusterWordCounts (groupDocs ts cs)).filter
        (fun e => decide (w ∈ keys e.2)) = [] := by
      rcases List.map_eq_nil_iff.mp h0 with h
      exact h
    rw [h1]
    rfl
  · rw [if_neg hF, Option.getD_some, hmap, dedupF_eq_self hnodup, List.length_map,
      cwc_filter_length]

/-! ### The grouping loop partitions the document indices -/

theorem pairsOf_map_fst (ts : List String) (cs : List Nat) :
    (pairsOf ts cs).map Prod.fst = (List.range cs.length).map (fun i => cs.getD i 0) := by
  rw [pairsOf, List.map_map]
  rfl

theorem filter_key_eq_nil_iff (ps : List (Nat × (String × Nat))) (l : Nat) :
    ps.filter (fun p => decide (p.1 = l)) = [] ↔ l ∉ ps.map Prod.fst := by
  rw [List.filter_eq_nil_iff]
  constructor
  · intro h hl
    rcases List.mem_map.mp hl with ⟨p, hp, hpl⟩
    have hp2 := h p hp
    simp only [decide_eq_true_eq] at hp2
    exact hp2 hpl
  · intro h p hp
    simp only [decide_eq_true_eq]
    intro hc
    exact h (List.mem_map.mpr ⟨p, hp, hc⟩)

theorem mem_keys_groupDocs (ts : List String) (cs : List Nat) (l : Nat) :
    l ∈ keys (groupDocs ts cs) ↔ l ∈ (pairsOf ts cs).map Prod.fst := by
  rw [← not_iff_not, ← getVal_eq_none_iff, groupDocs, getVal_groupAcc,
    ← filter_key_eq_nil_iff]
  by_cases he : (pairsOf ts cs).filter (fun p => decide (p.1 = l)) = [] <;> simp [he]

theorem entry_snd_eq (ts : List String) (cs : List Nat) {e : Nat × List (String × Nat)}
    (he : e ∈ groupDocs ts cs) :
    e.2 = ((pairsOf ts cs).filter (fun p => decide (p.1 = e.1))).map Prod.snd := by
  have hv := getVal_of_mem_of_nodup (nodup_keys_groupDocs ts cs) he
  rw [groupDocs, getVal_groupAcc] at hv
  by_cases hf : (pairsOf ts cs).filter (fun p => decide (p.1 = e.1)) = []
  · rw [if_pos hf] at hv
    cases hv
  · rw [if_neg hf] at hv
    simpa using hv.symm

theorem entry_indices_eq (ts : List String) (cs : List Nat) {e : Nat × List (String × Nat)}
    (he : e ∈ groupDocs ts cs) :
    e.2.map Prod.snd = (List.range cs.length).filter (fun i => decide (cs.getD i 0 = e.1)) := by
  rw [entry_snd_eq ts cs he, List.map_map, pairsOf, List.filter_map, List.map_map]
  have hpred : ((fun p : Nat × String × Nat => decide (p.1 = e.1)) ∘
      (fun i => (cs.getD i 0, (ts.getD i blankStr, i)))) =
      fun i => decide (cs.getD i 0 = e.1) := rfl
  have hfun : ((Prod.snd ∘ Prod.snd) ∘
      (fun i => ((cs.getD i 0, (ts.getD i blankStr, i)) : Nat × String × Nat))) =
      fun i => i := rfl
  rw [hpred, hfun, List.map_id']

theorem length_filter_cons_key (l : Nat) (L : List Nat) (hlL : l ∉ L) (xs : List Nat)
    (g : Nat → Nat) :
    (xs.filter (fun i => decide (g i = l))).length +
        (xs.filter (fun i => decide (g i ∈ L))).length =
      (xs.filter (fun i => decide (g i ∈ l :: L))).length := by
  induction xs with
  | nil => simp
  | cons x xs ih =>
    rw [List.filter_cons, List.filter_cons, List.filter_cons]
    by_cases h1 : g x = l
    · have h2 : g x ∉ L := fun hc => hlL (h1 ▸ hc)
      rw [if_pos (by simpa using h1), if_neg (by simpa using h2),
        if_pos (by simp [h1])]
      simp only [List.length_cons]
      omega
    · by_cases h2 : g x ∈ L
      · have h3 : g x ∈ l :: L := List.mem_cons_of_mem _ h2
        rw [if_neg (by simpa using h1), if_pos (by simpa using h2),
          if_pos (by simpa using h3)]
        simp only [List.length_cons]
        omega
      · have h3 : g x ∉ l :: L := by
          intro hc
          rcases List.mem_cons.mp hc with hc | hc
          · exact h1 hc
          · exact h2 hc
        rw [if_neg (by simpa using h1), if_neg (by simpa using h2),
          if_neg (by simpa using h3)]
        exact ih

theorem sum_filter_lengths (L : List Nat) (hL : L.Nodup) (xs : List Nat) (g : Nat → Nat) :
    (L.map (fun l => (xs.filter (fun i => decide (g i = l))).length)).sum =
      (xs.filter (fun i => decide (g i ∈ L))).length := by
  induction L with
  | nil => simp
  | cons l L ih =>
    rw [List.nodup_cons] at hL
    rw [List.map_cons, List.sum_cons, ih hL.2, length_filter_cons_key l L hL.1 xs g]

theorem mkTopic_indices (es : List (List ℚ)) (cwc : List (Nat × List (String × Nat)))
    (wic : List (String × List Nat)) (T : Nat) (e : Nat × List (String × Nat)) :
    (mkTopic es cwc wic T e).indices = e.2.map Prod.snd := rfl

theorem mkTopic_id (es : List (List ℚ)) (cwc : List (Nat × List (String × Nat)))
    (wic : List (String × List Nat)) (T : Nat) (e : Nat × List (String × Nat)) :
    (mkTopic es cwc wic T e).id = e.1 := rfl

theorem topicsOf_perm (ts : List String) (es : List (List ℚ)) (cs : List Nat) :
    (topicsOf ts es cs).Perm ((groupDocs ts cs).map
      (mkTopic es (clusterWordCounts (groupDocs ts cs))
        (wordInClusters (clusterWordCounts (groupDocs ts cs))) (groupDocs ts cs).length)) := by
  rw [topicsOf]
  exact sortStable_perm _ _

theorem cxF_spec : ClusterSpec cxF := by
  intro emb k hk _
  constructor
  · simp [cxF]
  · intro c hc
    rcases List.mem_map.mp hc with ⟨_, _, rfl⟩
    omega

theorem topicsOf_partition (ts : List String) (es : List (List ℚ)) (cs : List Nat)
    (hclen : cs.length = ts.length) :
    (∀ i, i < ts.length → ∃! t, t ∈ topicsOf ts es cs ∧ i ∈ t.indices) ∧
      ((topicsOf ts es cs).map (fun t => t.indices.length)).sum = ts.length := by
  have hperm := topicsOf_perm ts es cs
  constructor
  · intro i hi
    have hi' : i < cs.length := by omega
    have hl : cs.getD i 0 ∈ (pairsOf ts cs).map Prod.fst := by
      rw [pairsOf_map_fst]
      exact List.mem_map.mpr ⟨i, List.mem_range.mpr hi', rfl⟩
    have hlk : cs.getD i 0 ∈ keys (groupDocs ts cs) := (mem_keys_groupDocs ts cs _).mpr hl
    cases hgv : getVal (cs.getD i 0) (groupDocs ts cs) with
    | none => exact absurd hlk ((getVal_eq_none_iff _ _).mp hgv)
    | some b =>
      have hmem : (cs.getD i 0, b) ∈ groupDocs ts cs := getVal_mem hgv
      refine ⟨mkTopic es (clusterWordCounts (groupDocs ts cs))
        (wordInClusters (clusterWordCounts (groupDocs ts cs))) (groupDocs ts cs).length
        (cs.getD i 0, b), ⟨?_, ?_⟩, ?_⟩
      · exact hperm.mem_iff.mpr (List.mem_map.mpr ⟨_, hmem, rfl⟩)
      · rw [mkTopic_indices, entry_indices_eq ts cs hmem]
        exact List.mem_filter.mpr ⟨List.mem_range.mpr hi', by simp⟩
      · rintro t' ⟨ht'mem, ht'in⟩
        rcases List.mem_map.mp (hperm.mem_iff.mp ht'mem) with ⟨e', he', rfl⟩
        rw [mkTopic_indices, entry_indices_eq ts cs he'] at ht'in
        have hkey : cs.getD i 0 = e'.1 := by
          have h2 := (List.mem_filter.mp ht'in).2
          simpa using h2
        have hv' : getVal e'.1 (groupDocs ts cs) = some e'.2 :=
          getVal_of_mem_of_nodup (nodup_keys_groupDocs ts cs) he'
        rw [← hkey, hgv] at hv'
        have hb : e'.2 = b := by simpa using hv'.symm
        have he'eq : e' = (cs.getD i 0, b) := by
          cases e'
          simp_all
        rw [he'eq]
  · have hsum1 : ((topicsOf ts es cs).map (fun t => t.indices.length)).sum =
        (((groupDocs ts cs).map (mkTopic es (clusterWordCounts (groupDocs ts cs))
          (wordInClusters (clusterWordCounts (groupDocs ts cs)))
          (groupDocs ts cs).length)).map (fun t => t.indices.length)).sum :=
      (hperm.map _).sum_eq
    rw [hsum1, List.map_map]
    have hmapeq : ((groupDocs ts cs).map ((fun t : Topic => t.indices.length) ∘
        mkTopic es (clusterWordCounts (groupDocs ts cs))
          (wordInClusters (clusterWordCounts (groupDocs ts cs))) (groupDocs ts cs).length)) =
        (groupDocs ts cs).map (fun e =>
          ((List.range cs.length).filter (fun j => decide (cs.getD j 0 = e.1))).length) := by
      apply List.map_congr_left
      intro e he
      simp only [Function.comp]
      rw [mkTopic_indices, ← entry_indices_eq ts cs he]
    rw [hmapeq]
    have hkeysum : (groupDocs ts cs).map (fun e =>
        ((List.range cs.length).filter (fun j => decide (cs.getD j 0 = e.1))).length) =
        (keys (groupDocs ts cs)).map (fun l =>
          ((List.range cs.length).filter (fun j => decide (cs.getD j 0 = l))).length) := by
      rw [keys, List.map_map]
      rfl
    rw [hkeysum, sum_filter_lengths (keys (groupDocs ts cs)) (nodup_keys_groupDocs ts cs)]
    have hall : (List.range cs.length).filter
        (fun j => decide (cs.getD j 0 ∈ keys (groupDocs ts cs))) = List.range cs.length := by
      apply List.filter_eq_self.mpr
      intro j hj
      simp only [decide_eq_true_eq]
      apply (mem_keys_groupDocs ts cs _).mpr
      rw [pairsOf_map_fst]
      exact List.mem_map.mpr ⟨j, hj, rfl⟩
    rw [hall, List.length_range, hclen]

/-! ### Shared facts about the default k and the orchestrator -/

theorem defaultK_ge_two (n : Nat) : 2 ≤ defaultK n := le_max_left _ _

theorem defaultK_le {n : Nat} (h : 2 ≤ n) : defaultK n ≤ n :=
  max_le h (le_trans (Nat.sqrt_le_self _) (Nat.div_le_self n 2))

theorem numClustersOf_none (n : Nat) : numClustersOf n none = defaultK n := rfl

theorem numClustersOf_zero (n : Nat) : numClustersOf n (some 0) = defaultK n := rfl

theorem run_not_error (f : ClusterFn) (ts : List String) (es : List (List ℚ)) (k : Option Nat)
    (h1 : numClustersOf ts.length k ≠ 0)
    (h2 : ¬ es.length < numClustersOf ts.length k) :
    run f ts es k =
      .ok (if ts.isEmpty then [] else topicsOf ts es (f es (numClustersOf ts.length k))) := by
  by_cases hne : ts.isEmpty
  · rw [run, if_pos hne, if_pos hne]
  · rw [run, if_neg hne, if_neg hne, clusterOp, if_neg (by tauto)]
    rfl

/-! ### Claims C1, C2, C3, C4, C7, C10 -/

/-- C1 (counterexample): at N = 1 the derived default k is
max(2, floor(sqrt(0))) = 2, which exceeds N = 1; the spec's clamp to [1, N]
would give 1, so the claim as stated fails on the code. -/
theorem c1_default_k_cx :
    numClustersOf 1 none = 2 ∧ ¬ numClustersOf 1 none ≤ 1 ∧ specDefaultK 1 = 1 := by
  have hd : defaultK 1 = 2 := by
    rw [defaultK]
    norm_num [Nat.sqrt_zero]
  refine ⟨(numClustersOf_none 1).trans hd, ?_, ?_⟩
  · rw [numClustersOf_none, hd]
    omega
  · rw [specDefaultK, hd]
    omega

/-- C1 (amended): when k is unspecified the pipeline uses
max(2, floor(sqrt(N/2))) with no clamping; for every N ≥ 2 this value lies in
[1, N] — in particular it never exceeds N — while at N = 1 it is 2 > N. -/
theorem c1_default_k (n : Nat) (h : 2 ≤ n) :
    numClustersOf n none = max 2 (Nat.sqrt (n / 2)) ∧
      1 ≤ numClustersOf n none ∧ numClustersOf n none ≤ n := by
  refine ⟨rfl, ?_, ?_⟩
  · rw [numClustersOf_none]
    have := defaultK_ge_two n
    omega
  · rw [numClustersOf_none]
    exact defaultK_le h

theorem c1_default_k_witness :
    2 ≤ 3 ∧ (numClustersOf 3 none = max 2 (Nat.sqrt (3 / 2)) ∧
      1 ≤ numClustersOf 3 none ∧ numClustersOf 3 none ≤ 3) :=
  ⟨by norm_num, c1_default_k 3 (by norm_num)⟩

/-- C2 (amended): `run` performs no length validation at all — it can never
fail with a ShapeMismatch condition, whatever the lengths of `texts` and
`embeddings`; on a mismatch it simply clusters the embeddings it was given
(the counterexample exhibits the resulting partial output). -/
theorem c2_no_shape_check (f : ClusterFn) (ts : List String) (es : List (List ℚ))
    (k : Option Nat) : run f ts es k ≠ Except.error Err.ShapeMismatch := by
  rw [run]
  by_cases hne : ts.isEmpty
  · rw [if_pos hne]
    simp
  · rw [if_neg hne, clusterOp]
    by_cases hk : numClustersOf ts.length k = 0 ∨ es.length < numClustersOf ts.length k
    · rw [if_pos hk]
      simp [Except.map]
    · rw [if_neg hk]
      simp [Except.map]

/-- C2 (counterexample): three texts, two embeddings — far from failing fast
with ShapeMismatch, `run` succeeds and returns a partial result covering only
document indices 0 and 1; index 2 is silently dropped. -/
theorem c2_no_shape_check_cx :
    run cxF [tAAA, tBBB, tCCC] [[0], [1]] (some 1) =
      Except.ok [⟨0, "aaa_bbb", [tAAA, tBBB], [tAAA, tBBB], [0, 1], [[0], [1]]⟩] ∧
      ([tAAA, tBBB, tCCC] : List String).length ≠ ([[0], [1]] : List (List ℚ)).length :=
  ⟨by decide, by decide⟩

/-- C3: the cluster operation rejects k = 0 (k ≤ 0 in this Nat model) and
k > N with an InvalidParameter condition instead of returning an assignment.
The validation lives in the external ml-kmeans call, modelled from spec §4.2. -/
theorem c3_cluster_invalid (f : ClusterFn) (emb : List (List ℚ)) (k : Nat)
    (h : k = 0 ∨ emb.length < k) :
    clusterOp f emb k = Except.error Err.InvalidParameter := by
  rw [clusterOp, if_pos h]

theorem c3_cluster_invalid_witness :
    ((3 : Nat) = 0 ∨ ([[(0 : ℚ)], [1]] : List (List ℚ)).length < 3) ∧
      clusterOp cxF [[(0 : ℚ)], [1]] 3 = Except.error Err.InvalidParameter :=
  ⟨Or.inr (by norm_num), c3_cluster_invalid cxF [[(0 : ℚ)], [1]] 3 (Or.inr (by norm_num))⟩

theorem padTo_length (td : Nat) (e : List ℚ) :
    (e.take td ++ List.replicate (td - e.length) (0 : ℚ)).length = td := by
  rw [List.length_append, List.length_take, List.length_replicate]
  omega

theorem padTo_getD (td : Nat) (e : List ℚ) (j : Nat) (hj : j < td) :
    (e.take td ++ List.replicate (td - e.length) (0 : ℚ)).getD j 0 =
      if j < e.length then e.getD j 0 else 0 := by
  have htot : j < (e.take td ++ List.replicate (td - e.length) (0 : ℚ)).length := by
    rw [padTo_length]
    exact hj
  by_cases hje : j < e.length
  · have h1 : j < (e.take td).length := by
      rw [List.length_take]
      omega
    rw [if_pos hje, List.getD_eq_getElem _ _ htot, List.getElem_append, dif_pos h1,
      List.getElem_take, List.getD_eq_getElem _ _ hje]
  · have h1 : ¬ j < (e.take td).length := by
      rw [List.length_take]
      omega
    rw [if_neg hje, List.getD_eq_getElem _ _ htot, List.getElem_append, dif_neg h1,
      List.getElem_replicate]

/-- C4: for N < targetDim + 1 `reduce` attempts no decomposition and returns,
for each of the N input vectors in order, a row of exact width targetDim whose
first min(D, targetDim) entries are the vector's own components and whose
remaining entries are zero. -/
theorem c4_reduce_degenerate (eigF : List (List ℚ) → List EigenPair)
    (emb : List (List ℚ)) (td : Nat) (h : emb.length < td + 1) :
    ∃ rows, reduce eigF emb td = some rows ∧ rows.length = emb.length ∧
      ∀ i, i < emb.length →
        (rows.getD i []).length = td ∧
        ∀ j, j < td →
          (rows.getD i []).getD j 0 =
            if j < (emb.getD i []).length then (emb.getD i []).getD j 0 else 0 := by
  refine ⟨emb.map (fun e => e.take td ++ List.replicate (td - e.length) 0), ?_, by simp, ?_⟩
  · rw [reduce, if_pos h]
  · intro i hi
    have hrow : (emb.map (fun e => e.take td ++ List.replicate (td - e.length) (0 : ℚ))).getD i [] =
        (emb.getD i []).take td ++ List.replicate (td - (emb.getD i []).length) 0 := by
      rw [List.getD_eq_getElem _ _ (by simpa using hi), List.getElem_map,
        List.getD_eq_getElem _ _ hi]
    rw [hrow]
    exact ⟨padTo_length td _, fun j hj => padTo_getD td _ j hj⟩

theorem c4_reduce_degenerate_witness :
    ([[(1 : ℚ), 2]] : List (List ℚ)).length < 3 + 1 ∧
      (∃ rows, reduce eigFcx [[(1 : ℚ), 2]] 3 = some rows ∧
        rows.length = ([[(1 : ℚ), 2]] : List (List ℚ)).length ∧
        ∀ i, i < ([[(1 : ℚ), 2]] : List (List ℚ)).length →
          (rows.getD i []).length = 3 ∧
          ∀ j, j < 3 →
            (rows.getD i []).getD j 0 =
              if j < (([[(1 : ℚ), 2]] : List (List ℚ)).getD i []).length then
                (([[(1 : ℚ), 2]] : List (List ℚ)).getD i []).getD j 0
              else 0) :=
  ⟨by norm_num, c4_reduce_degenerate eigFcx [[(1 : ℚ), 2]] 3 (by norm_num)⟩

/-- C7: with totalClusters = T > 1 and raw count c > 0, a token present in
exactly one cluster (clustersWith = 1) scores strictly higher than one with
the same count present in every cluster (clustersWith = T), whose score
c·log 2 is itself still positive. -/
theorem c7_exclusive_scores_higher (T c : Nat) (w1 w2 : String)
    (hT : 1 < T) (hc : 0 < c) :
    scoreVal T ⟨w2, c, T⟩ < scoreVal T ⟨w1, c, 1⟩ ∧ 0 < scoreVal T ⟨w2, c, T⟩ := by
  have hcR : (0 : ℝ) < (c : ℝ) := by exact_mod_cast hc
  have hT0 : (T : ℝ) ≠ 0 := Nat.cast_ne_zero.mpr (by omega)
  have h2T : (2 : ℝ) ≤ (T : ℝ) := by exact_mod_cast hT
  have hTT : scoreVal T ⟨w2, c, T⟩ = (c : ℝ) * Real.log 2 := by
    simp only [scoreVal]
    rw [div_self hT0]
    norm_num
  have hT1 : scoreVal T ⟨w1, c, 1⟩ = (c : ℝ) * Real.log (1 + (T : ℝ)) := by
    simp only [scoreVal]
    norm_num
  constructor
  · rw [hTT, hT1]
    refine mul_lt_mul_of_pos_left ?_ hcR
    refine Real.log_lt_log (by norm_num) ?_
    linarith
  · rw [hTT]
    exact mul_pos hcR (Real.log_pos (by norm_num))

theorem c7_exclusive_scores_higher_witness :
    1 < 2 ∧ 0 < 1 ∧
      (scoreVal 2 ⟨wDog, 1, 2⟩ < scoreVal 2 ⟨wCat, 1, 1⟩ ∧ 0 < scoreVal 2 ⟨wDog, 1, 2⟩) :=
  ⟨by norm_num, by norm_num,
    c7_exclusive_scores_higher 2 1 wCat wDog (by norm_num) (by norm_num)⟩

/-- C5 (amended): for N ≥ targetDim + 1, provided the decomposition yields at
least targetDim eigenpairs, `reduce` returns exactly N rows of width exactly
targetDim (hence at most targetDim) with
point[j] = embedding_i · eigenvector_j; with fewer eigenpairs available the
projection loop fails (it reads an undefined eigenvector) instead of
returning rows, see the counterexample. -/
theorem c5_reduce_projection (eigF : List (List ℚ) → List EigenPair)
    (emb : List (List ℚ)) (td : Nat) (h1 : td + 1 ≤ emb.length)
    (h2 : td ≤ (eigF emb).length) :
    ∃ rows, reduce eigF emb td = some rows ∧ rows.length = emb.length ∧
      (∀ r ∈ rows, r.length = td) ∧
      ∀ i, i < emb.length → ∀ j, j < td →
        (rows.getD i []).getD j 0 =
          dotQ (emb.getD i [])
            ((((eigF emb).take td).map EigenPair.eigenvector).getD j []) := by
  have hnlt : ¬ emb.length < td + 1 := not_lt.mpr h1
  have htv : (((eigF emb).take td).map EigenPair.eigenvector).length = td := by
    rw [List.length_map, List.length_take]
    omega
  refine ⟨(List.range emb.length).map (fun i =>
      (List.range td).map (fun j =>
        dotQ (emb.getD i [])
          ((((eigF emb).take td).map EigenPair.eigenvector).getD j []))), ?_, ?_, ?_, ?_⟩
  · rw [reduce, if_neg hnlt, if_neg (by omega)]
  · simp
  · intro r hr
    rcases List.mem_map.mp hr with ⟨i, _, rfl⟩
    simp
  · intro i hi j hj
    have hrow : ((List.range emb.length).map (fun i =>
        (List.range td).map (fun j =>
          dotQ (emb.getD i []) ((((eigF emb).take td).map EigenPair.eigenvector).getD j [])))).getD i [] =
        (List.range td).map (fun j =>
          dotQ (emb.getD i []) ((((eigF emb).take td).map EigenPair.eigenvector).getD j [])) := by
      rw [List.getD_eq_getElem _ _ (by simpa using hi), List.getElem_map, List.getElem_range]
    rw [hrow, List.getD_eq_getElem _ _ (by simpa using hj), List.getElem_map, List.getElem_range]

theorem c5_reduce_projection_witness :
    3 + 1 ≤ ([[(1 : ℚ), 0, 0], [0, 1, 0], [0, 0, 1], [1, 1, 1]] : List (List ℚ)).length ∧
      3 ≤ (eigFw [[(1 : ℚ), 0, 0], [0, 1, 0], [0, 0, 1], [1, 1, 1]]).length ∧
      (∃ rows, reduce eigFw [[(1 : ℚ), 0, 0], [0, 1, 0], [0, 0, 1], [1, 1, 1]] 3 = some rows ∧
        rows.length = ([[(1 : ℚ), 0, 0], [0, 1, 0], [0, 0, 1], [1, 1, 1]] : List (List ℚ)).length ∧
        (∀ r ∈ rows, r.length = 3) ∧
        ∀ i, i < ([[(1 : ℚ), 0, 0], [0, 1, 0], [0, 0, 1], [1, 1, 1]] : List (List ℚ)).length →
          ∀ j, j < 3 →
            (rows.getD i []).getD j 0 =
              dotQ (([[(1 : ℚ), 0, 0], [0, 1, 0], [0, 0, 1], [1, 1, 1]] : List (List ℚ)).getD i [])
                ((((eigFw [[(1 : ℚ), 0, 0], [0, 1, 0], [0, 0, 1], [1, 1, 1]]).take 3).map
                  EigenPair.eigenvector).getD j [])) :=
  ⟨by decide, by decide,
    c5_reduce_projection eigFw [[(1 : ℚ), 0, 0], [0, 1, 0], [0, 0, 1], [1, 1, 1]] 3
      (by decide) (by decide)⟩

/-- C5 (counterexample): four 1-dimensional points with targetDim 3.  Per
spec §3 a decomposition yields at most min(N-1, D) = 1 eigenpair here, so
the projection loop reads an undefined eigenvector and the call fails — it
does not return N rows of width ≤ targetDim, although N ≥ targetDim + 1. -/
theorem c5_reduce_projection_cx :
    reduce eigFcx [[(1 : ℚ)], [2], [3], [4]] 3 = none ∧
      3 + 1 ≤ ([[(1 : ℚ)], [2], [3], [4]] : List (List ℚ)).length ∧
      (eigFcx [[(1 : ℚ)], [2], [3], [4]]).length < 3 :=
  ⟨by decide, by decide, by decide⟩

/-- C6: for every cluster `l` and surviving token `w` with stored count `c`,
the score entry the pipeline builds for `(l, w)` carries exactly the token's
raw occurrence count across the cluster's documents and the number of
distinct clusters containing the token, and its score — the value the source
computes as `tf * Math.log(1 + totalClusters / clustersWithWord)` — equals
`rawCount * log(1 + totalClusters / clustersWithWord)` with both quantities
characterized independently of the count-map mechanics. -/
theorem c6_score_formula (ts : List String) (cs : List Nat) (l : Nat)
    (wc : List (String × Nat)) (w : String) (c : Nat)
    (hwc : getVal l (clusterWordCounts (groupDocs ts cs)) = some wc)
    (hcw : getVal w wc = some c) :
    c = specRawCount ts cs l w ∧
    cwOf (wordInClusters (clusterWordCounts (groupDocs ts cs))) w =
      specClustersWith ts cs w ∧
    (⟨w, c, cwOf (wordInClusters (clusterWordCounts (groupDocs ts cs))) w⟩ : ScoreItem) ∈
      scoresFor (wordInClusters (clusterWordCounts (groupDocs ts cs))) wc ∧
    scoreVal (groupDocs ts cs).length
        ⟨w, c, cwOf (wordInClusters (clusterWordCounts (groupDocs ts cs))) w⟩ =
      (specRawCount ts cs l w : ℝ) *
        Real.log (1 + ((groupDocs ts cs).length : ℝ) / (specClustersWith ts cs w : ℝ)) := by
  have hcw0 := hcw
  have hmap : getVal l (clusterWordCounts (groupDocs ts cs)) =
      (getVal l (groupDocs ts cs)).map (fun pairs => countWords (pairs.map Prod.fst)) := by
    rw [clusterWordCounts]
    exact getVal_map_entry (fun pairs => countWords (pairs.map Prod.fst)) (groupDocs ts cs) l
  rw [hmap] at hwc
  cases hgd : getVal l (groupDocs ts cs) with
  | none =>
    rw [hgd] at hwc
    cases hwc
  | some pairs =>
    rw [hgd] at hwc
    have hwceq : wc = countWords (pairs.map Prod.fst) := by
      simpa using hwc.symm
    have h1 : c = specRawCount ts cs l w := by
      rw [hwceq, countWords, getVal_countAcc] at hcw
      by_cases h0 : occCount w ((pairs.map Prod.fst).flatMap tokenize) = 0
      · rw [if_pos h0] at hcw
        cases hcw
      · rw [if_neg h0] at hcw
        have hco : occCount w ((pairs.map Prod.fst).flatMap tokenize) = c := by
          simpa using hcw
        rw [specRawCount, hgd, Option.getD_some, ← hco]
    have h2 := cwOf_eq ts cs w
    refine ⟨h1, h2, ?_, ?_⟩
    · exact List.mem_map.mpr ⟨(w, c), getVal_mem hcw0, rfl⟩
    · simp only [scoreVal]
      rw [h1, h2]

theorem c6_score_formula_witness :
    getVal 0 (clusterWordCounts (groupDocs [tCatDoc, tDogDoc] [0, 1])) =
      some [(wCat, 2), (wDog, 1)] ∧
    getVal wCat [(wCat, 2), (wDog, 1)] = some 2 ∧
    (2 = specRawCount [tCatDoc, tDogDoc] [0, 1] 0 wCat ∧
      cwOf (wordInClusters (clusterWordCounts (groupDocs [tCatDoc, tDogDoc] [0, 1]))) wCat =
        specClustersWith [tCatDoc, tDogDoc] [0, 1] wCat ∧
      (⟨wCat, 2, cwOf (wordInClusters (clusterWordCounts
          (groupDocs [tCatDoc, tDogDoc] [0, 1]))) wCat⟩ : ScoreItem) ∈
        scoresFor (wordInClusters (clusterWordCounts (groupDocs [tCatDoc, tDogDoc] [0, 1])))
          [(wCat, 2), (wDog, 1)] ∧
      scoreVal (groupDocs [tCatDoc, tDogDoc] [0, 1]).length
          ⟨wCat, 2, cwOf (wordInClusters (clusterWordCounts
            (groupDocs [tCatDoc, tDogDoc] [0, 1]))) wCat⟩ =
        (specRawCount [tCatDoc, tDogDoc] [0, 1] 0 wCat : ℝ) *
          Real.log (1 + ((groupDocs [tCatDoc, tDogDoc] [0, 1]).length : ℝ) /
            (specClustersWith [tCatDoc, tDogDoc] [0, 1] wCat : ℝ))) :=
  ⟨by decide, by decide,
    c6_score_formula [tCatDoc, tDogDoc] [0, 1] 0 [(wCat, 2), (wDog, 1)] wCat 2
      (by decide) (by decide)⟩

/-- C8 (amended): within each cluster the score entries are sorted by score
descending — with respect to the real scores the source computes — and the
sort is stable, so equal-scoring tokens keep their relative insertion order,
i.e. the order of first occurrence in the cluster's documents, not
lexicographic order; the topic's keywords are the words of the first five
entries of that order. -/
theorem c8_ranking (es : List (List ℚ)) (cwc : List (Nat × List (String × Nat)))
    (wic : List (String × List Nat)) (T : Nat) (e : Nat × List (String × Nat)) :
    (mkTopic es cwc wic T e).keywords =
      ((sortStable (scoreLe T) (scoresFor wic ((getVal e.1 cwc).getD []))).take 5).map
        ScoreItem.word ∧
    (sortStable (scoreLe T) (scoresFor wic ((getVal e.1 cwc).getD []))).Perm
      (scoresFor wic ((getVal e.1 cwc).getD [])) ∧
    (sortStable (scoreLe T) (scoresFor wic ((getVal e.1 cwc).getD []))).Pairwise
      (fun a b => scoreVal T b ≤ scoreVal T a) ∧
    ∀ a b : ScoreItem, [a, b].Sublist (scoresFor wic ((getVal e.1 cwc).getD [])) →
      scoreVal T a = scoreVal T b →
      [a, b].Sublist (sortStable (scoreLe T) (scoresFor wic ((getVal e.1 cwc).getD []))) := by
  refine ⟨rfl, sortStable_perm _ _, ?_, ?_⟩
  · have hp := sortStable_pairwise (scoreLe T) (scoreLe_trans T)
      (fun a b => scoreLe_total T a b) (scoresFor wic ((getVal e.1 cwc).getD []))
    exact hp.imp (fun hab => (scoreLe_iff T _ _).mp hab)
  · intro a b hsub heq
    refine sortStable_stable (scoreLe T) _ _ hsub ?_
    refine List.pairwise_cons.mpr ⟨?_, by simp⟩
    intro z hz
    rw [List.mem_singleton] at hz
    subst hz
    exact (scoreLe_iff T a z).mpr (le_of_eq heq.symm)

/-- C8 (counterexample): in the single cluster of the document
"zebra apple" both surviving tokens have count 1 and appear in the one
cluster, so their scores are equal; the keywords nevertheless come out
["zebra", "apple"] — first-occurrence order — not the lexicographic
["apple", "zebra"] the claim requires, although "apple" < "zebra". -/
theorem c8_ranking_cx :
    run cxF [tZebraApple] [[(0 : ℚ)]] (some 1) =
      Except.ok [⟨0, "zebra_apple", [wZebra, wApple], [tZebraApple], [0], [[0]]⟩] ∧
    scoreVal 1 ⟨wZebra, 1, 1⟩ = scoreVal 1 ⟨wApple, 1, 1⟩ ∧
    lexLt wApple wZebra = true ∧
    ([wZebra, wApple] : List String) ≠ [wApple, wZebra] :=
  ⟨by decide, rfl, by decide, by decide⟩

/-- C9: whenever the pipeline succeeds on a non-empty input with matching
lengths (and the clusterer meets the spec's assignment contract), the
returned topics partition the document indices: every index in {0..N-1} lies
in the indices of exactly one topic, and the topic sizes sum to N. -/
theorem c9_partition (f : ClusterFn) (ts : List String) (es : List (List ℚ))
    (k : Option Nat) (topics : List Topic) (hf : ClusterSpec f)
    (hlen : ts.length = es.length) (hne : ts ≠ [])
    (hrun : run f ts es k = Except.ok topics) :
    (∀ i, i < ts.length → ∃! t, t ∈ topics ∧ i ∈ t.indices) ∧
      (topics.map (fun t => t.indices.length)).sum = ts.length := by
  have hne2 : ts.isEmpty = false := by
    cases ts
    · exact absurd rfl hne
    · rfl
  rw [run, if_neg (by simp [hne2]), clusterOp] at hrun
  by_cases hk : numClustersOf ts.length k = 0 ∨ es.length < numClustersOf ts.length k
  · rw [if_pos hk] at hrun
    simp [Except.map] at hrun
  · rw [if_neg hk] at hrun
    push_neg at hk
    obtain ⟨hclen, _⟩ := hf es (numClustersOf ts.length k) (by omega) (by omega)
    have htopics : topics = topicsOf ts es (f es (numClustersOf ts.length k)) := by
      simp [Except.map] at hrun
      exact hrun.symm
    rw [htopics]
    exact topicsOf_partition ts es _ (by omega)

theorem c9_partition_witness :
    (∀ i, i < ([tAAA, tBBB] : List String).length →
      ∃! t, t ∈ ([⟨0, "aaa_bbb", [tAAA, tBBB], [tAAA, tBBB], [0, 1],
        [[0], [1]]⟩] : List Topic) ∧ i ∈ t.indices) ∧
    (([⟨0, "aaa_bbb", [tAAA, tBBB], [tAAA, tBBB], [0, 1],
        [[0], [1]]⟩] : List Topic).map (fun t => t.indices.length)).sum =
      ([tAAA, tBBB] : List String).length :=
  c9_partition cxF [tAAA, tBBB] [[0], [1]] (some 2)
    [⟨0, "aaa_bbb", [tAAA, tBBB], [tAAA, tBBB], [0, 1], [[0], [1]]⟩]
    cxF_spec (by decide) (by decide) (by decide)

/-- C10 (amended): an explicit k = 0 is never itself rejected: being falsy it
is silently replaced by the default heuristic, so `run(texts, embeddings, 0)`
behaves exactly like `run(texts, embeddings)` with k unspecified; for
N ≥ 2 with matching lengths no InvalidParameter then arises.  (At N = 1 the
substituted default 2 exceeds N and the cluster step does fail — see the
counterexample.) -/
theorem c10_zero_k (f : ClusterFn) (ts : List String) (es : List (List ℚ))
    (h2 : 2 ≤ ts.length) (hlen : ts.length = es.length) :
    run f ts es (some 0) = run f ts es none ∧
      run f ts es (some 0) ≠ Except.error Err.InvalidParameter := by
  refine ⟨rfl, ?_⟩
  have h1 : numClustersOf ts.length (some 0) ≠ 0 := by
    rw [numClustersOf_zero]
    have := defaultK_ge_two ts.length
    omega
  have h2' : ¬ es.length < numClustersOf ts.length (some 0) := by
    rw [numClustersOf_zero]
    have := defaultK_le h2
    omega
  rw [run_not_error f ts es (some 0) h1 h2']
  simp

theorem c10_zero_k_witness :
    2 ≤ ([tAAA, tBBB] : List String).length ∧
      ([tAAA, tBBB] : List String).length = ([[(0 : ℚ)], [1]] : List (List ℚ)).length ∧
      (run cxF [tAAA, tBBB] [[0], [1]] (some 0) = run cxF [tAAA, tBBB] [[0], [1]] none ∧
        run cxF [tAAA, tBBB] [[0], [1]] (some 0) ≠ Except.error Err.InvalidParameter) :=
  ⟨by decide, by decide, c10_zero_k cxF [tAAA, tBBB] [[0], [1]] (by decide) (by decide)⟩

/-- C10 (counterexample): with one text and one embedding, k = 0 leads to the
substituted default k = 2 > N = 1 and `run` does fail with InvalidParameter. -/
theorem c10_zero_k_cx :
    run cxF [tABC] [[(0 : ℚ)]] (some 0) = Except.error Err.InvalidParameter ∧
      ([tABC] : List String) ≠ [] := by
  constructor
  · have hk : numClustersOf ([tABC] : List String).length (some 0) = 2 := by
      rw [numClustersOf_zero]
      rw [show ([tABC] : List String).length = 1 from rfl, defaultK]
      norm_num [Nat.sqrt_zero]
    rw [run, if_neg (by simp), hk, clusterOp, if_pos (by norm_num)]
    rfl
  · simp

end WGE
